import Mathlib

/-!
Verification of the data-cleaning pipeline of the ClimateAirQualityAnalyzer
repository (`src/data_processor.py`), as a shallow embedding in Lean 4.

Modelling conventions, mirroring the pandas code:
* A cell of a measurement column is `Option ℚ` (`none` is pandas `NaN`);
  values are rationals (the code only ever compares, clips, sums and
  averages them, so ℚ is an exact model of the float arithmetic used on
  the in-range data of the claims).
* A `Row` carries the three base columns `Station`, `Date`, `Time` plus a
  total valuation of the twelve measurement columns; a `Table` carries the
  list of measurement columns currently present (columns can be dropped by
  the pipeline) together with the rows.  Operations only ever inspect
  `vals` on fields listed in `cols`, matching a DataFrame that simply does
  not have the dropped columns.
* A Python `None` argument is `Option.none`; a pandas exception escaping a
  stage is modelled by the stage returning `none` (stages that cannot
  raise return `Table` directly).
* `pd.to_numeric(..., errors='coerce')` turns every unparseable cell into
  `NaN`; raw measurement cells are therefore modelled post-coercion, as
  `Option ℚ` already.
-/

/-- The twelve measurement columns of `DF_COLUMNS` (everything except
`Station`, `Date`, `Time`). -/
inductive DFCol : Type
  | pressure | rh | temp | wd | ws | prec
  | no | no2 | nox | o3 | pm10 | pm25
  deriving DecidableEq, Repr

/-- The measurement columns in DataFrame order: the `numeric_cols` list of
`convert_data_types`. -/
def numericCols : List DFCol :=
  [DFCol.pressure, DFCol.rh, DFCol.temp, DFCol.wd, DFCol.ws, DFCol.prec,
   DFCol.no, DFCol.no2, DFCol.nox, DFCol.o3, DFCol.pm10, DFCol.pm25]

/-- `WeatherVariables.HOURS_PER_DAY`: the four sampling hours. -/
def hoursPerDay : List String := ["01:00", "07:00", "13:00", "19:00"]

/-- A row of the working table after the type normalizer: station and
(re-rendered) date are strings, time is minutes after midnight (a faithful
order-isomorphic image of the `datetime.time` values pandas stores), and
every measurement column has an optional rational value. -/
structure Row : Type where
  station : String
  date : String
  time : ℕ
  vals : DFCol → Option ℚ

/-- A working table: the measurement columns present plus the rows.  The
base columns `Station`, `Date`, `Time` are always present. -/
structure Table : Type where
  cols : List DFCol
  rows : List Row

/-- The empty DataFrame `pd.DataFrame()`: no columns, no rows. -/
def Table.empty : Table := ⟨[], []⟩

/-- The `(station, date, time)` key of a row, the dedup/grouping/sorting
key used throughout the pipeline. -/
def rowKey (r : Row) : String × String × ℕ := (r.station, r.date, r.time)

/-- Lexicographic strict order on `(station, date, time)` keys; station and
date compare as Python strings (code-point lexicographic, which is exactly
Lean's `String` order). -/
def keyLt (a b : String × String × ℕ) : Prop :=
  a.1 < b.1 ∨ (a.1 = b.1 ∧ (a.2.1 < b.2.1 ∨ (a.2.1 = b.2.1 ∧ a.2.2 < b.2.2)))

/-- Lexicographic reflexive order on keys. -/
def keyLe (a b : String × String × ℕ) : Prop :=
  keyLt a b ∨ a = b

instance (a b : String × String × ℕ) : Decidable (keyLt a b) := by
  unfold keyLt; exact inferInstance

instance (a b : String × String × ℕ) : Decidable (keyLe a b) := by
  unfold keyLe; exact inferInstance

theorem keyLt_irrefl (a : String × String × ℕ) : ¬ keyLt a a := by
  rcases a with ⟨s, d, t⟩
  rintro (h | ⟨-, h | ⟨-, h⟩⟩) <;> exact absurd h (by simp)

theorem keyLt_trans {a b c : String × String × ℕ}
    (h1 : keyLt a b) (h2 : keyLt b c) : keyLt a c := by
  rcases a with ⟨s1, d1, t1⟩; rcases b with ⟨s2, d2, t2⟩; rcases c with ⟨s3, d3, t3⟩
  rcases h1 with h1 | ⟨e1, h1⟩ <;> rcases h2 with h2 | ⟨e2, h2⟩
  · exact Or.inl (lt_trans h1 h2)
  · exact Or.inl (e2 ▸ h1)
  · exact Or.inl (e1 ▸ h2)
  · refine Or.inr ⟨e1.trans e2, ?_⟩
    rcases h1 with h1 | ⟨f1, h1⟩ <;> rcases h2 with h2 | ⟨f2, h2⟩
    · exact Or.inl (lt_trans h1 h2)
    · exact Or.inl (f2 ▸ h1)
    · exact Or.inl (f1 ▸ h2)
    · exact Or.inr ⟨f1.trans f2, lt_trans h1 h2⟩

theorem keyLt_asymm {a b : String × String × ℕ}
    (h : keyLt a b) : ¬ keyLt b a := fun h2 =>
  keyLt_irrefl a (keyLt_trans h h2)

theorem keyLt_trichotomy (a b : String × String × ℕ) :
    keyLt a b ∨ a = b ∨ keyLt b a := by
  rcases a with ⟨s1, d1, t1⟩; rcases b with ⟨s2, d2, t2⟩
  rcases lt_trichotomy s1 s2 with h | rfl | h
  · exact Or.inl (Or.inl h)
  · rcases lt_trichotomy d1 d2 with h | rfl | h
    · exact Or.inl (Or.inr ⟨rfl, Or.inl h⟩)
    · rcases lt_trichotomy t1 t2 with h | rfl | h
      · exact Or.inl (Or.inr ⟨rfl, Or.inr ⟨rfl, h⟩⟩)
      · exact Or.inr (Or.inl rfl)
      · exact Or.inr (Or.inr (Or.inr ⟨rfl, Or.inr ⟨rfl, h⟩⟩))
    · exact Or.inr (Or.inr (Or.inr ⟨rfl, Or.inl h⟩))
  · exact Or.inr (Or.inr (Or.inl h))

theorem keyLe_refl (a : String × String × ℕ) : keyLe a a := Or.inr rfl

theorem keyLe_trans {a b c : String × String × ℕ}
    (h1 : keyLe a b) (h2 : keyLe b c) : keyLe a c := by
  rcases h1 with h1 | rfl
  · rcases h2 with h2 | rfl
    · exact Or.inl (keyLt_trans h1 h2)
    · exact Or.inl h1
  · exact h2

theorem keyLt_of_not_keyLe {a b : String × String × ℕ}
    (h : ¬ keyLe a b) : keyLt b a := by
  rcases keyLt_trichotomy a b with h1 | h1 | h1
  · exact absurd (Or.inl h1) h
  · exact absurd (Or.inr h1) h
  · exact h1

theorem keyLe_of_not_keyLe {a b : String × String × ℕ}
    (h : ¬ keyLe a b) : keyLe b a := Or.inl (keyLt_of_not_keyLe h)

theorem keyLe_of_keyLt {a b : String × String × ℕ}
    (h : keyLt a b) : keyLe a b := Or.inl h

theorem not_keyLt_of_keyLe {a b : String × String × ℕ}
    (h : keyLe a b) : ¬ keyLt b a := by
  rcases h with h | rfl
  · exact keyLt_asymm h
  · exact keyLt_irrefl a

theorem keyLt_ne {a b : String × String × ℕ} (h : keyLt a b) : a ≠ b := by
  rintro rfl; exact keyLt_irrefl a h

/-- Insert a row into a (sorted) list, after every row whose key is `≤` its
key.  Together with `sortRows` this is the unique stable ascending sort,
which is exactly what `DataFrame.sort_values` with several `by` keys does
(pandas uses `numpy.lexsort`, a stable sort, for multi-key sorts). -/
def insertRow (r : Row) : List Row → List Row
  | [] => [r]
  | x :: xs =>
    if keyLe (rowKey x) (rowKey r) then x :: insertRow r xs
    else r :: x :: xs

/-- Stable ascending sort of rows by `(station, date, time)`. -/
def sortRows (l : List Row) : List Row :=
  l.foldl (fun acc r => insertRow r acc) []

/-- Rows pairwise in weak key order. -/
def RowsSorted (l : List Row) : Prop :=
  l.Pairwise (fun a b => keyLe (rowKey a) (rowKey b))

theorem mem_insertRow {l : List Row} {r b : Row} :
    b ∈ insertRow r l ↔ b = r ∨ b ∈ l := by
  induction l with
  | nil => simp [insertRow]
  | cons x xs ih =>
    by_cases hle : keyLe (rowKey x) (rowKey r)
    · rw [insertRow, if_pos hle]
      simp only [List.mem_cons, ih]
      tauto
    · rw [insertRow, if_neg hle]
      simp only [List.mem_cons]

theorem rowsSorted_insertRow {l : List Row} (r : Row) (h : RowsSorted l) :
    RowsSorted (insertRow r l) := by
  induction l with
  | nil => simp [insertRow, RowsSorted]
  | cons x xs ih =>
    rcases List.pairwise_cons.mp h with ⟨hx, hxs⟩
    by_cases hle : keyLe (rowKey x) (rowKey r)
    · rw [insertRow, if_pos hle]
      refine List.pairwise_cons.mpr ⟨?_, ih hxs⟩
      intro b hb
      rcases mem_insertRow.mp hb with rfl | hb2
      · exact hle
      · exact hx b hb2
    · rw [insertRow, if_neg hle]
      refine List.pairwise_cons.mpr ⟨?_, h⟩
      intro b hb
      rcases List.mem_cons.mp hb with rfl | hb2
      · exact keyLe_of_not_keyLe hle
      · exact keyLe_trans (keyLe_of_not_keyLe hle) (hx b hb2)

/-- Filtering one key class commutes with `insertRow` of a row of another
key. -/
theorem filter_insertRow_ne {l : List Row} {r : Row}
    {k : String × String × ℕ} (h : rowKey r ≠ k) :
    (insertRow r l).filter (fun s => decide (rowKey s = k)) =
      l.filter (fun s => decide (rowKey s = k)) := by
  induction l with
  | nil => simp [insertRow, h]
  | cons x xs ih =>
    by_cases hle : keyLe (rowKey x) (rowKey r)
    · rw [insertRow, if_pos hle]
      by_cases hx : rowKey x = k
      · rw [List.filter_cons_of_pos (by simp [hx]),
          List.filter_cons_of_pos (by simp [hx]), ih]
      · rw [List.filter_cons_of_neg (by simp [hx]),
          List.filter_cons_of_neg (by simp [hx]), ih]
    · rw [insertRow, if_neg hle, List.filter_cons_of_neg (by simp [h])]

/-- Inserting a row of the filtered key class into a sorted list appends it
at the end of that class. -/
theorem filter_insertRow_eq {l : List Row} {r : Row}
    {k : String × String × ℕ} (hs : RowsSorted l) (h : rowKey r = k) :
    (insertRow r l).filter (fun s => decide (rowKey s = k)) =
      l.filter (fun s => decide (rowKey s = k)) ++ [r] := by
  induction l with
  | nil => simp [insertRow, h]
  | cons x xs ih =>
    rcases List.pairwise_cons.mp hs with ⟨hx, hxs⟩
    by_cases hle : keyLe (rowKey x) (rowKey r)
    · rw [insertRow, if_pos hle]
      by_cases hxk : rowKey x = k
      · rw [List.filter_cons_of_pos (by simp [hxk]),
          List.filter_cons_of_pos (by simp [hxk]), ih hxs, List.cons_append]
      · rw [List.filter_cons_of_neg (by simp [hxk]),
          List.filter_cons_of_neg (by simp [hxk]), ih hxs]
    · rw [insertRow, if_neg hle]
      have hlt : keyLt (rowKey r) (rowKey x) := keyLt_of_not_keyLe hle
      have hnil : (x :: xs).filter (fun s => decide (rowKey s = k)) = [] := by
        refine List.filter_eq_nil_iff.mpr ?_
        intro s hsmem hdec
        have hks : rowKey s = k := of_decide_eq_true hdec
        have hrs : keyLt (rowKey r) (rowKey s) := by
          rcases List.mem_cons.mp hsmem with rfl | hmem
          · exact hlt
          · rcases hx s hmem with hlt2 | heq
            · exact keyLt_trans hlt hlt2
            · exact heq ▸ hlt
        rw [hks, ← h] at hrs
        exact keyLt_irrefl _ hrs
      rw [List.filter_cons_of_pos (by simp [h]), hnil]
      simp

theorem length_insertRow (r : Row) (l : List Row) :
    (insertRow r l).length = l.length + 1 := by
  induction l with
  | nil => rfl
  | cons x xs ih =>
    by_cases hle : keyLe (rowKey x) (rowKey r)
    · rw [insertRow, if_pos hle]; simp [ih]
    · rw [insertRow, if_neg hle]; simp

/-- The accumulator invariant for `sortRows`: starting from a sorted
accumulator, the fold stays sorted and each key class of the accumulator is
extended, in input order, by the input's key class. -/
theorem foldl_insertRow_sorted_filter (l : List Row) :
    ∀ acc : List Row, RowsSorted acc →
      RowsSorted (l.foldl (fun a r => insertRow r a) acc) ∧
      ∀ k : String × String × ℕ,
        (l.foldl (fun a r => insertRow r a) acc).filter
            (fun s => decide (rowKey s = k)) =
          acc.filter (fun s => decide (rowKey s = k)) ++
            l.filter (fun s => decide (rowKey s = k)) := by
  induction l with
  | nil => intro acc hacc; exact ⟨hacc, fun k => by simp⟩
  | cons r rs ih =>
    intro acc hacc
    have hacc2 : RowsSorted (insertRow r acc) := rowsSorted_insertRow r hacc
    rcases ih (insertRow r acc) hacc2 with ⟨hs, hf⟩
    refine ⟨hs, fun k => ?_⟩
    rw [List.foldl_cons] at *
    rw [hf k]
    by_cases hk : rowKey r = k
    · rw [filter_insertRow_eq hacc hk, List.filter_cons_of_pos (by simp [hk])]
      simp
    · rw [filter_insertRow_ne hk, List.filter_cons_of_neg (by simp [hk])]

theorem sortRows_sorted (l : List Row) : RowsSorted (sortRows l) :=
  (foldl_insertRow_sorted_filter l [] (by simp [RowsSorted])).1

/-- Stability of `sortRows`: within each key class the sorted output lists
the rows in their input order. -/
theorem sortRows_stable (l : List Row) (k : String × String × ℕ) :
    (sortRows l).filter (fun s => decide (rowKey s = k)) =
      l.filter (fun s => decide (rowKey s = k)) := by
  have h := (foldl_insertRow_sorted_filter l [] (by simp [RowsSorted])).2 k
  simpa [sortRows] using h

theorem length_sortRows (l : List Row) :
    (sortRows l).length = l.length := by
  have : ∀ acc : List Row,
      (l.foldl (fun a r => insertRow r a) acc).length =
        acc.length + l.length := by
    induction l with
    | nil => intro acc; simp
    | cons r rs ih =>
      intro acc
      rw [List.foldl_cons, ih (insertRow r acc), length_insertRow]
      simp [Nat.add_assoc, Nat.add_comm 1 rs.length]
  simpa [sortRows] using this []

/-- Insert a key into a strictly sorted key list, keeping it a strictly
sorted list of the distinct keys seen so far (set semantics, as for the
group keys of `DataFrame.groupby`, which are the sorted distinct keys). -/
def insertKey (k : String × String × ℕ) :
    List (String × String × ℕ) → List (String × String × ℕ)
  | [] => [k]
  | x :: xs =>
    if keyLt x k then x :: insertKey k xs
    else if x = k then x :: xs
    else k :: x :: xs

/-- The sorted list of the distinct `(station, date, time)` keys of a row
list: the index produced by `groupby(["Station", "Date", "Time"])`. -/
def keyList : List Row → List (String × String × ℕ)
  | [] => []
  | r :: rs => insertKey (rowKey r) (keyList rs)

theorem mem_insertKey {l : List (String × String × ℕ)}
    {k a : String × String × ℕ} :
    a ∈ insertKey k l ↔ a = k ∨ a ∈ l := by
  induction l with
  | nil => simp [insertKey]
  | cons x xs ih =>
    by_cases hlt : keyLt x k
    · rw [insertKey, if_pos hlt]
      simp only [List.mem_cons, ih]
      tauto
    · by_cases heq : x = k
      · rw [insertKey, if_neg hlt, if_pos heq]
        subst heq
        simp only [List.mem_cons]
        tauto
      · rw [insertKey, if_neg hlt, if_neg heq]
        simp only [List.mem_cons]

def KeysSorted (l : List (String × String × ℕ)) : Prop :=
  l.Pairwise keyLt

theorem keysSorted_insertKey {l : List (String × String × ℕ)}
    (k : String × String × ℕ) (h : KeysSorted l) :
    KeysSorted (insertKey k l) := by
  induction l with
  | nil => simp [insertKey, KeysSorted]
  | cons x xs ih =>
    rcases List.pairwise_cons.mp h with ⟨hx, hxs⟩
    by_cases hlt : keyLt x k
    · rw [insertKey, if_pos hlt]
      refine List.pairwise_cons.mpr ⟨?_, ih hxs⟩
      intro b hb
      rcases mem_insertKey.mp hb with rfl | hb2
      · exact hlt
      · exact hx b hb2
    · by_cases heq : x = k
      · rw [insertKey, if_neg hlt, if_pos heq]
        exact h
      · rw [insertKey, if_neg hlt, if_neg heq]
        have hkx : keyLt k x := by
          rcases keyLt_trichotomy x k with h1 | h1 | h1
          · exact absurd h1 hlt
          · exact absurd h1 heq
          · exact h1
        refine List.pairwise_cons.mpr ⟨?_, h⟩
        intro b hb
        rcases List.mem_cons.mp hb with rfl | hb2
        · exact hkx
        · exact keyLt_trans hkx (hx b hb2)

theorem keysSorted_keyList (l : List Row) : KeysSorted (keyList l) := by
  induction l with
  | nil => simp [keyList, KeysSorted]
  | cons r rs ih => exact keysSorted_insertKey (rowKey r) ih

theorem mem_keyList {l : List Row} {a : String × String × ℕ} :
    a ∈ keyList l ↔ ∃ r ∈ l, rowKey r = a := by
  induction l with
  | nil => simp [keyList]
  | cons r rs ih =>
    rw [keyList, mem_insertKey, ih]
    constructor
    · rintro (rfl | ⟨s, hs, rfl⟩)
      · exact ⟨r, List.mem_cons_self r rs, rfl⟩
      · exact ⟨s, List.mem_cons_of_mem r hs, rfl⟩
    · rintro ⟨s, hs, rfl⟩
      rcases List.mem_cons.mp hs with rfl | hs2
      · exact Or.inl rfl
      · exact Or.inr ⟨s, hs2, rfl⟩

theorem length_insertKey (k : String × String × ℕ)
    (l : List (String × String × ℕ)) :
    (insertKey k l).length ≤ l.length + 1 := by
  induction l with
  | nil => simp [insertKey]
  | cons x xs ih =>
    by_cases hlt : keyLt x k
    · rw [insertKey, if_pos hlt]
      simpa using Nat.succ_le_succ ih
    · by_cases heq : x = k
      · rw [insertKey, if_neg hlt, if_pos heq]
        simp [Nat.le_succ]
      · rw [insertKey, if_neg hlt, if_neg heq]
        simp

theorem length_keyList (l : List Row) : (keyList l).length ≤ l.length := by
  induction l with
  | nil => simp [keyList]
  | cons r rs ih =>
    calc (insertKey (rowKey r) (keyList rs)).length
        ≤ (keyList rs).length + 1 := length_insertKey _ _
      _ ≤ rs.length + 1 := Nat.succ_le_succ ih

/-- Inserting a key smaller than every element prepends it. -/
theorem insertKey_of_lt_all {l : List (String × String × ℕ)}
    {k : String × String × ℕ} (h : ∀ x ∈ l, keyLt k x) :
    insertKey k l = k :: l := by
  cases l with
  | nil => rfl
  | cons x xs =>
    have hkx : keyLt k x := h x (List.mem_cons_self x xs)
    rw [insertKey, if_neg (keyLt_asymm hkx), if_neg (fun he => keyLt_ne hkx he.symm)]

/-- On a row list whose keys are already strictly sorted, `keyList` simply
reads off the keys. -/
theorem keyList_of_sorted {l : List Row}
    (h : (l.map rowKey).Pairwise keyLt) :
    keyList l = l.map rowKey := by
  induction l with
  | nil => rfl
  | cons r rs ih =>
    rw [List.map_cons, List.pairwise_cons] at h
    rw [keyList, ih h.2, insertKey_of_lt_all h.1, List.map_cons]

/-- A raw row as handed to the pipeline: `Date` is a `DD/MM/YYYY` string,
`Time` an `HH:MM` string, and the measurement cells are the result of
numeric coercion (`pd.to_numeric(..., errors='coerce')` maps every
unparseable cell to `NaN`, i.e. `none`, and never raises). -/
structure RawRow : Type where
  station : String
  date : String
  time : String
  vals : DFCol → Option ℚ

/-- Split a character list on a separator, `str.split(sep)`-style. -/
def splitChar (sep : Char) : List Char → List (List Char)
  | [] => [[]]
  | c :: cs =>
    if c = sep then [] :: splitChar sep cs
    else
      match splitChar sep cs with
      | [] => [[c]]
      | g :: gs => (c :: g) :: gs

/-- Decimal digit value of a character, if it is a digit. -/
def charDigit (c : Char) : Option ℕ :=
  if '0' ≤ c ∧ c ≤ '9' then some (c.toNat - 48) else none

/-- Parse a non-empty all-digit character list as a decimal number. -/
def digitsToNat (cs : List Char) : Option ℕ :=
  cs.foldl
    (fun acc c =>
      match acc, charDigit c with
      | some n, some d => some (n * 10 + d)
      | _, _ => none)
    (some 0)

/-- Gregorian leap-year rule, as `datetime` uses. -/
def isLeap (y : ℕ) : Prop := (y % 4 = 0 ∧ y % 100 ≠ 0) ∨ y % 400 = 0

instance (y : ℕ) : Decidable (isLeap y) := by unfold isLeap; exact inferInstance

def daysInMonth (y m : ℕ) : ℕ :=
  if m = 2 then (if isLeap y then 29 else 28)
  else if m = 4 ∨ m = 6 ∨ m = 9 ∨ m = 11 then 30
  else 31

/-- Parse a date string against `strptime` format `%d/%m/%Y`, validating
ranges exactly as `datetime.strptime` does (day must exist in the month,
year at least 1); returns `(day, month, year)`.  A failure models the
`ValueError` raised by `pd.to_datetime(..., format='%d/%m/%Y')`. -/
def parseDate (s : String) : Option (ℕ × ℕ × ℕ) :=
  match splitChar '/' s.data with
  | [ds, ms, ys] =>
    if 1 ≤ ds.length ∧ ds.length ≤ 2 ∧ 1 ≤ ms.length ∧ ms.length ≤ 2 ∧
        1 ≤ ys.length ∧ ys.length ≤ 4 then
      match digitsToNat ds, digitsToNat ms, digitsToNat ys with
      | some d, some m, some y =>
        if 1 ≤ m ∧ m ≤ 12 ∧ 1 ≤ d ∧ d ≤ daysInMonth y m ∧ 1 ≤ y then
          some (d, m, y)
        else none
      | _, _, _ => none
    else none
  | _ => none

/-- Parse a time string against `strptime` format `%H:%M`; returns minutes
after midnight. -/
def parseTime (s : String) : Option ℕ :=
  match splitChar ':' s.data with
  | [hs, ms] =>
    if 1 ≤ hs.length ∧ hs.length ≤ 2 ∧ 1 ≤ ms.length ∧ ms.length ≤ 2 then
      match digitsToNat hs, digitsToNat ms with
      | some h, some m => if h ≤ 23 ∧ m ≤ 59 then some (h * 60 + m) else none
      | _, _ => none
    else none
  | _ => none

def digitChar (n : ℕ) : Char := Char.ofNat (48 + n)

/-- Zero-padded two-digit decimal rendering (`%d`, `%m` of `strftime`). -/
def pad2 (n : ℕ) : List Char :=
  if n < 10 then ['0', digitChar n] else [digitChar (n / 10), digitChar (n % 10)]

/-- Zero-padded four-digit decimal rendering (`%Y` of `strftime`). -/
def pad4 (n : ℕ) : List Char :=
  if n < 10 then ['0', '0', '0', digitChar n]
  else if n < 100 then '0' :: '0' :: pad2 n
  else if n < 1000 then '0' :: digitChar (n / 100) :: pad2 (n % 100)
  else [digitChar (n / 1000), digitChar (n / 100 % 10), digitChar (n / 10 % 10),
    digitChar (n % 10)]

/-- Re-render a parsed date in `strftime` format `%Y/%m/%d`. -/
def renderDate (y m d : ℕ) : String :=
  String.mk (pad4 y ++ '/' :: pad2 m ++ '/' :: pad2 d)

/-- Convert one raw row: parse its date against `%d/%m/%Y`, re-render as
`%Y/%m/%d`, and parse its time as `%H:%M`; fails when either of the two
`pd.to_datetime` calls of `convert_data_types` would raise. -/
def convertRow (r : RawRow) : Option Row :=
  match parseDate r.date, parseTime r.time with
  | some (d, m, y), some t => some ⟨r.station, renderDate y m d, t, r.vals⟩
  | _, _ => none

/-- Column-wise conversion: the `pd.to_datetime` calls convert the whole
`Date` (then `Time`) column and raise on the first unparseable entry, so
the stage succeeds only when every row converts. -/
def convertRows : List RawRow → Option (List Row)
  | [] => some []
  | r :: rs =>
    match convertRow r, convertRows rs with
    | some x, some xs => some (x :: xs)
    | _, _ => none

/-- The Type and Sort Normalizer `DataProcessor.convert_data_types`:
`None`/empty guard, date re-rendering, time parsing, stable ascending sort
by `["Station", "Date", "Time"]`, and numeric coercion of the twelve
measurement columns (the coercion is the identity here because raw cells
are modelled post-coercion).  A `none` result is the `ValueError` that
`pd.to_datetime` raises on an unparseable date or time. -/
def convert_data_types (data : Option (List RawRow)) : Option Table :=
  match data with
  | none => some Table.empty
  | some rt =>
    if rt.isEmpty then some Table.empty
    else
      match convertRows rt with
      | none => none
      | some rows => some ⟨numericCols, sortRows rows⟩

theorem convertRows_eq_filterMap {rt : List RawRow}
    (h : ∀ r ∈ rt, (convertRow r).isSome) :
    convertRows rt = some (rt.filterMap convertRow) := by
  induction rt with
  | nil => rfl
  | cons r rs ih =>
    have hr : (convertRow r).isSome := h r (List.mem_cons_self r rs)
    rcases Option.isSome_iff_exists.mp hr with ⟨x, hx⟩
    rw [convertRows, hx, ih (fun s hs => h s (List.mem_cons_of_mem r hs)),
      List.filterMap_cons, hx]

/-- Row equality as `drop_duplicates` sees it: equal in every column
present in the frame (the three base columns plus the measurement columns
listed in `cols`). -/
def rowEqB (cols : List DFCol) (a b : Row) : Bool :=
  decide (a.station = b.station) && decide (a.date = b.date) &&
    decide (a.time = b.time) && cols.all (fun f => decide (a.vals f = b.vals f))

/-- `drop_duplicates(keep='last')`: a row is kept exactly when no later row
is equal to it, which keeps the last occurrence of every duplicate class
and preserves the order of the kept rows. -/
def dropDupKeepLast (cols : List DFCol) : List Row → List Row
  | [] => []
  | r :: rs =>
    if rs.any (rowEqB cols r) then dropDupKeepLast cols rs
    else r :: dropDupKeepLast cols rs

/-- Mean of the non-missing values of a group column, `NaN` when the value
is missing in every member — the skip-NA mean `DataFrame.groupby(...).mean()`
computes. -/
def meanOpt (xs : List ℚ) : Option ℚ :=
  if xs.isEmpty then none else some (xs.sum / xs.length)

/-- The single consolidated row `groupby(["Station","Date","Time"]).mean()`
produces for one group key: base columns from the key, every measurement
column the skip-NA mean over the group members. -/
def mkMeanRow (dd : List Row) (k : String × String × ℕ) : Row :=
  ⟨k.1, k.2.1, k.2.2, fun f =>
    meanOpt ((dd.filter (fun s => decide (rowKey s = k))).filterMap
      (fun s => s.vals f))⟩

/-- The Duplicate Consolidator `DataProcessor.handle_duplicates`:
`None`/empty guard, `drop_duplicates(keep='last')`, then
`groupby(["Station", "Date", "Time"]).mean().reset_index()`, whose output
rows are indexed by the sorted distinct keys. -/
def handle_duplicates (data : Option Table) : Table :=
  match data with
  | none => Table.empty
  | some t =>
    if t.rows.isEmpty then Table.empty
    else
      let dd := dropDupKeepLast t.cols t.rows
      ⟨t.cols, (keyList dd).map (mkMeanRow dd)⟩

/-- One forward-fill step of the column state: a present value resets the
last-seen value and the missing-run counter. -/
def ffillCol (limit : ℕ) (last : Option ℚ) (cnt : ℕ) :
    List (Option ℚ) → List (Option ℚ)
  | [] => []
  | some v :: xs => some v :: ffillCol limit (some v) 0 xs
  | none :: xs =>
    (if cnt + 1 ≤ limit then last else none) :: ffillCol limit last (cnt + 1) xs

/-- Row-wise forward fill of all columns in `cols` at once, threading per
column the last seen value and the current missing-run length; the column
projection of this is exactly `ffillCol` (proved below). -/
def ffillRows (cols : List DFCol) (limit : ℕ) (last : DFCol → Option ℚ)
    (cnt : DFCol → ℕ) : List Row → List Row
  | [] => []
  | r :: rs =>
    { r with
      vals := fun f =>
        if f ∈ cols then
          match r.vals f with
          | some v => some v
          | none => if cnt f + 1 ≤ limit then last f else none
        else r.vals f } ::
      ffillRows cols limit
        (fun f => match r.vals f with | some v => some v | none => last f)
        (fun f => match r.vals f with | some _ => 0 | none => cnt f + 1) rs

/-- The bounded forward fill `DataProcessor.__fill_missing_values`:
`None`/empty guard, then
`df[cols].fillna(method='ffill', limit=len(HOURS_PER_DAY) * days_limit)`
over the measurement columns (`df.columns[3:]`). -/
def fill_missing_values (data : Option Table) (days_limit : ℕ := 2) : Table :=
  match data with
  | none => Table.empty
  | some t =>
    if t.rows.isEmpty then Table.empty
    else
      ⟨t.cols,
        ffillRows t.cols (hoursPerDay.length * days_limit)
          (fun _ => none) (fun _ => 0) t.rows⟩

/-- Number of missing measurement cells of a row, over the columns present. -/
def missCount (cols : List DFCol) (r : Row) : ℕ :=
  cols.countP (fun f => (r.vals f).isNone)

/-- Fraction of missing cells of column `f`, in percent:
`df.isnull().mean() * 100` for one column. -/
def missingPct (t : Table) (f : DFCol) : ℚ :=
  100 * ((t.rows.countP (fun r => (r.vals f).isNone) : ℚ) / (t.rows.length : ℚ))

/-- `DataProcessor.__remove_corrupted_columns`: `None`/empty guard, then
drop every column whose missing percentage strictly exceeds the threshold.
The base columns `Station`, `Date`, `Time` are never missing, so (for a
non-negative threshold) only measurement columns can be dropped. -/
def remove_corrupted_columns (data : Option Table) (threshold : ℚ) : Table :=
  match data with
  | none => Table.empty
  | some t =>
    if t.rows.isEmpty then Table.empty
    else
      ⟨t.cols.filter (fun f => !(decide (missingPct t f > threshold))), t.rows⟩

/-- `DataProcessor.__remove_corrupt_rows`: `None`/empty guard, then
`df.dropna(thresh=df.shape[1] - number_of_max_missing_cols)`, keeping a row
exactly when its number of non-missing cells (the three base cells plus the
non-missing measurement cells) reaches the threshold.  The Python threshold
is a possibly negative machine integer, hence the `ℤ` comparison. -/
def remove_corrupt_rows (data : Option Table) (number_of_max_missing_cols : ℕ) :
    Table :=
  match data with
  | none => Table.empty
  | some t =>
    if t.rows.isEmpty then Table.empty
    else
      ⟨t.cols,
        t.rows.filter (fun r =>
          decide ((3 + (t.cols.length - missCount t.cols r) : ℤ) ≥
            (3 + t.cols.length : ℤ) - number_of_max_missing_cols))⟩

/-- A row all of whose measurement cells (over the present columns) are
missing. -/
def allMissing (cols : List DFCol) (r : Row) : Bool :=
  cols.all (fun f => (r.vals f).isNone)

/-- The Missing-Value Handler `DataProcessor.handle_missing_values`:
`None`/empty guard; bounded forward fill with the default `days_limit = 2`;
`dropna(subset=measurement columns, how='all')`; then the column pass and
the row pass of corruption pruning. -/
def handle_missing_values (data : Option Table) (columns_threshold : ℚ := 70)
    (rows_threshold : ℕ := 3) : Table :=
  match data with
  | none => Table.empty
  | some t =>
    if t.rows.isEmpty then Table.empty
    else
      let t1 := fill_missing_values (some t) 2
      let t2 : Table := ⟨t1.cols, t1.rows.filter (fun r => !(allMissing t1.cols r))⟩
      remove_corrupt_rows
        (some (remove_corrupted_columns (some t2) columns_threshold))
        rows_threshold

/-- The `acceptable_ranges` dict of `detect_and_handle_outliers`, in its
insertion (= iteration) order: `(variable, (min, max))`, `none` meaning an
open bound (`None` in the source). -/
def acceptable_ranges : List (DFCol × ℚ × Option ℚ) :=
  [(DFCol.rh, 0, some 100), (DFCol.temp, -50, some 60),
   (DFCol.wd, 0, some 360), (DFCol.ws, 0, none), (DFCol.prec, 0, none),
   (DFCol.no, 0, none), (DFCol.no2, 0, none), (DFCol.nox, 0, none),
   (DFCol.o3, 0, none), (DFCol.pm10, 0, none)]

/-- Outlier test `(column < min_val) | (column > max_val)` of the detection
loop.  A missing cell compares `False` on both sides (NaN semantics), and a
`None` upper bound also compares `False` (pandas maps an ordering
comparison of a numeric column against the scalar `None` to all-`False`). -/
def isOutlier (mn : ℚ) (mx : Option ℚ) (v : Option ℚ) : Bool :=
  match v with
  | none => false
  | some x =>
    decide (x < mn) ||
      (match mx with
       | some m => decide (x > m)
       | none => false)

/-- `Series.clip(lower, upper)` on one non-missing cell; `upper=None` means
no upper clipping. -/
def clipQ (lo : ℚ) (hi : Option ℚ) (x : ℚ) : ℚ :=
  match hi with
  | some h => min (max x lo) h
  | none => max x lo

/-- The bounds the handling loop of `detect_and_handle_outliers` actually
clips with.  The Python handling loop reads the loop variables `min_val`
and `max_val` of the *detection* loop after that loop has finished, so for
every variable it clips with the bounds of the last dict entry,
`PM10: (0, None)` — not with the variable's own bounds. -/
def leakedRange : ℚ × Option ℚ :=
  (acceptable_ranges.getLastD (DFCol.pm10, 0, none)).2

/-- The Outlier Clamper `DataProcessor.detect_and_handle_outliers`:
`None`/empty guard; then the detection loop reads
`self.modified_data_frame[variable]` for every ranged variable, raising
`KeyError` (modelled as `none`) when one of those columns is absent;
finally each cell detected as an outlier for its own variable's range is
replaced by its clip against the leaked bounds `leakedRange`. -/
def detect_and_handle_outliers (data : Option Table) : Option Table :=
  match data with
  | none => some Table.empty
  | some t =>
    if t.rows.isEmpty then some Table.empty
    else if acceptable_ranges.all (fun p => decide (p.1 ∈ t.cols)) then
      some ⟨t.cols,
        t.rows.map (fun r =>
          { r with
            vals := fun f =>
              match acceptable_ranges.lookup f with
              | some (mn, mx) =>
                if isOutlier mn mx (r.vals f) then
                  (r.vals f).map (clipQ leakedRange.1 leakedRange.2)
                else r.vals f
              | none => r.vals f })⟩
    else none

/-- First-seen-order list of the distinct values of a column, as
`Series.unique()` returns them. -/
def firstSeen : List String → List String
  | [] => []
  | a :: l => a :: firstSeen (l.filter (fun b => decide (b ≠ a)))
termination_by l => l.length
decreasing_by
  simp only [List.length_cons]
  exact Nat.lt_succ_of_le (List.length_filter_le _ _)

/-- The integer code `normalize_features` assigns to a value: its position
in first-seen order, starting at 1 (`i + 1` over `enumerate(unique)`). -/
def firstSeenCode (xs : List String) (s : String) : ℕ :=
  (firstSeen xs).indexOf s + 1

/-- A base-column cell after `normalize_features`: either the original
string or its replacement integer code. -/
inductive NCell : Type
  | str (s : String)
  | code (n : ℕ)
  deriving DecidableEq, Repr

/-- The string-valued base columns `str_columns` may designate.  `Time`
holds parsed time-of-day values, not strings, after the normalizer ran. -/
inductive BaseCol : Type
  | station
  | date
  deriving DecidableEq, Repr

/-- A row after `normalize_features`, with possibly integer-coded base
columns. -/
structure NRow : Type where
  station : NCell
  date : NCell
  time : ℕ
  vals : DFCol → Option ℚ

/-- A table of normalized rows. -/
structure NTable : Type where
  cols : List DFCol
  rows : List NRow

def NTable.empty : NTable := ⟨[], []⟩

/-- The Categorical Normalizer `DataProcessor.normalize_features`:
`None`/empty guard, then for every designated string column replace each
value by `unique()`-order code `i + 1`, consistently across the rows of
this one invocation. -/
def normalize_features (data : Option Table) (str_columns : List BaseCol) :
    NTable :=
  match data with
  | none => NTable.empty
  | some t =>
    if t.rows.isEmpty then NTable.empty
    else
      ⟨t.cols,
        t.rows.map (fun r =>
          { station :=
              if BaseCol.station ∈ str_columns then
                NCell.code (firstSeenCode (t.rows.map Row.station) r.station)
              else NCell.str r.station
            date :=
              if BaseCol.date ∈ str_columns then
                NCell.code (firstSeenCode (t.rows.map Row.date) r.date)
              else NCell.str r.date
            time := r.time
            vals := r.vals })⟩

/-- The cleaning pipeline in the order the specification fixes:
`convert_data_types`, then `handle_duplicates`, then
`handle_missing_values`, then `detect_and_handle_outliers`.  (The stages
are translated from `data_processor.py`; the composition itself has no
driver inside `src/` and follows the specification's stage order.)  A
`none` result is an exception terminating the run. -/
def run_pipeline (data : Option (List RawRow)) (columns_threshold : ℚ := 70)
    (rows_threshold : ℕ := 3) : Option Table :=
  match convert_data_types data with
  | none => none
  | some t1 =>
    detect_and_handle_outliers
      (some (handle_missing_values (some (handle_duplicates (some t1)))
        columns_threshold rows_threshold))

theorem length_ffillRows (cols : List DFCol) (limit : ℕ) :
    ∀ (l : List Row) (last : DFCol → Option ℚ) (cnt : DFCol → ℕ),
      (ffillRows cols limit last cnt l).length = l.length := by
  intro l
  induction l with
  | nil => intro last cnt; rfl
  | cons r rs ih => intro last cnt; simp [ffillRows, ih]

/-- Claim C8: on a `None` input and on an empty input table, every pipeline
stage — the type normalizer, the duplicate consolidator, the missing-value
handler, the outlier clamper, and the categorical normalizer — returns an
empty table and never raises (the fallible stages return `some` of the
empty table). -/
theorem empty_input_stages (cols : List DFCol) (cth : ℚ) (rth : ℕ)
    (sc : List BaseCol) :
    convert_data_types none = some Table.empty ∧
    convert_data_types (some []) = some Table.empty ∧
    handle_duplicates none = Table.empty ∧
    handle_duplicates (some ⟨cols, []⟩) = Table.empty ∧
    handle_missing_values none cth rth = Table.empty ∧
    handle_missing_values (some ⟨cols, []⟩) cth rth = Table.empty ∧
    detect_and_handle_outliers none = some Table.empty ∧
    detect_and_handle_outliers (some ⟨cols, []⟩) = some Table.empty ∧
    normalize_features none sc = NTable.empty ∧
    normalize_features (some ⟨cols, []⟩) sc = NTable.empty :=
  ⟨rfl, rfl, rfl, rfl, rfl, rfl, rfl, rfl, rfl, rfl⟩

/-- The concrete failing input for claim C1: a wind direction of `400`
(every other measurement in range, all measurement columns present). -/
def c1RowHigh : Row :=
  ⟨"A", "2020/01/01", 60, fun f => if f = DFCol.wd then some 400 else some 1⟩

/-- A companion row with wind direction `-10`. -/
def c1RowLow : Row :=
  ⟨"A", "2020/01/01", 420, fun f => if f = DFCol.wd then some (-10) else some 1⟩

def c1Table : Table := ⟨numericCols, [c1RowHigh, c1RowLow]⟩

/-- Claim C1 (evaluation at the failing input): the code's outlier handler
leaves a wind-direction value of `400` unchanged instead of clamping it to
`360`, because the handling loop clips with the leaked bounds `(0, None)`
of the last detection-loop iteration; the `-10` value happens to become `0`
only because the leaked lower bound coincides with wind direction's. -/
theorem outlier_clamp_bug_eval :
    (detect_and_handle_outliers (some c1Table)).map
        (fun t => t.rows.map (fun r => r.vals DFCol.wd)) =
      some [some 400, some 0] := by
  decide

/-- Claim C7: the outlier clamper and the forward-fill sub-step never
change the row count of a non-empty table — whenever the clamper returns a
table (rather than raising on a missing column) it has exactly the input's
rows, and the filled table always has exactly the input's rows. -/
theorem clamp_fill_row_count (t : Table) (dl : ℕ) (h : t.rows ≠ []) :
    (∀ t2, detect_and_handle_outliers (some t) = some t2 →
      t2.rows.length = t.rows.length) ∧
    (fill_missing_values (some t) dl).rows.length = t.rows.length := by
  have hne : t.rows.isEmpty = false := by
    cases hr : t.rows with
    | nil => exact absurd hr h
    | cons a l => rfl
  constructor
  · intro t2 h2
    rw [detect_and_handle_outliers, hne] at h2
    by_cases hall : acceptable_ranges.all (fun p => decide (p.1 ∈ t.cols)) = true
    · rw [if_neg (by simp), if_pos hall] at h2
      cases h2
      simp
    · rw [if_neg (by simp), if_neg hall] at h2
      cases h2
  · rw [fill_missing_values, hne]
    rw [if_neg (by simp)]
    exact length_ffillRows _ _ _ _ _

/-- Witness for C7 at a concrete one-row table. -/
theorem clamp_fill_row_count_witness :
    (∀ t2, detect_and_handle_outliers (some c1Table) = some t2 →
      t2.rows.length = c1Table.rows.length) ∧
    (fill_missing_values (some c1Table) 2).rows.length = c1Table.rows.length :=
  clamp_fill_row_count c1Table 2 (List.cons_ne_nil _ _)

/-- Cells already present are never touched by the forward fill. -/
theorem ffillCol_some (limit : ℕ) :
    ∀ (xs : List (Option ℚ)) (last : Option ℚ) (cnt i : ℕ) (v : ℚ),
      xs[i]? = some (some v) →
      (ffillCol limit last cnt xs)[i]? = some (some v) := by
  intro xs
  induction xs with
  | nil => intro last cnt i v h; simp at h
  | cons x xs ih =>
    intro last cnt i v h
    cases i with
    | zero =>
      simp only [List.getElem?_cons_zero, Option.some.injEq] at h
      subst h
      simp [ffillCol]
    | succ i =>
      simp only [List.getElem?_cons_succ] at h
      cases x with
      | some w =>
        simp only [ffillCol, List.getElem?_cons_succ]
        exact ih (some w) 0 i v h
      | none =>
        simp only [ffillCol, List.getElem?_cons_succ]
        exact ih last (cnt + 1) i v h

/-- A run of missing cells with no observation inside the list so far: the
fill uses the threaded state, and fills exactly while the total run length
`cnt + i + 1` is within the limit. -/
theorem ffillCol_leading_run (limit : ℕ) :
    ∀ (xs : List (Option ℚ)) (last : Option ℚ) (cnt i : ℕ),
      (∀ l, l ≤ i → xs[l]? = some none) →
      (ffillCol limit last cnt xs)[i]? =
        some (if cnt + i + 1 ≤ limit then last else none) := by
  intro xs
  induction xs with
  | nil =>
    intro last cnt i h
    have h0 := h 0 (Nat.zero_le i)
    simp at h0
  | cons x xs ih =>
    intro last cnt i h
    have h0 := h 0 (Nat.zero_le i)
    simp only [List.getElem?_cons_zero, Option.some.injEq] at h0
    subst h0
    cases i with
    | zero => simp [ffillCol]
    | succ i =>
      have htail : ∀ l, l ≤ i → xs[l]? = some none := by
        intro l hl
        have := h (l + 1) (Nat.succ_le_succ hl)
        simpa using this
      simp only [ffillCol, List.getElem?_cons_succ]
      rw [ih last (cnt + 1) i htail,
        show cnt + 1 + i + 1 = cnt + (i + 1) + 1 by omega]

/-- The central forward-fill bound: inside a run of missing cells that
follows an observed value `v` at position `j`, position `i` is filled with
`v` exactly when its distance `i - j` into the run is within the limit, and
left missing beyond the limit. -/
theorem ffillCol_run (limit : ℕ) :
    ∀ (xs : List (Option ℚ)) (last : Option ℚ) (cnt j i : ℕ) (v : ℚ),
      xs[j]? = some (some v) →
      (∀ l, j < l → l ≤ i → xs[l]? = some none) →
      j < i →
      (ffillCol limit last cnt xs)[i]? =
        some (if i - j ≤ limit then some v else none) := by
  intro xs
  induction xs with
  | nil => intro last cnt j i v hj hrun hji; simp at hj
  | cons x xs ih =>
    intro last cnt j i v hj hrun hji
    cases j with
    | zero =>
      simp only [List.getElem?_cons_zero, Option.some.injEq] at hj
      subst hj
      cases i with
      | zero => exact absurd hji (by omega)
      | succ i =>
        have htail : ∀ l, l ≤ i → xs[l]? = some none := by
          intro l hl
          have := hrun (l + 1) (Nat.succ_pos l) (Nat.succ_le_succ hl)
          simpa using this
        simp only [ffillCol, List.getElem?_cons_succ]
        rw [ffillCol_leading_run limit xs (some v) 0 i htail,
          show 0 + i + 1 = i + 1 - 0 by omega]
    | succ j =>
      cases i with
      | zero => exact absurd hji (by omega)
      | succ i =>
        have hj2 : xs[j]? = some (some v) := by simpa using hj
        have hrun2 : ∀ l, j < l → l ≤ i → xs[l]? = some none := by
          intro l h1 h2
          have := hrun (l + 1) (Nat.succ_lt_succ h1) (Nat.succ_le_succ h2)
          simpa using this
        have hji2 : j < i := by omega
        cases x with
        | some w =>
          simp only [ffillCol, List.getElem?_cons_succ]
          rw [ih (some w) 0 j i v hj2 hrun2 hji2,
            show i - j = i + 1 - (j + 1) by omega]
        | none =>
          simp only [ffillCol, List.getElem?_cons_succ]
          rw [ih last (cnt + 1) j i v hj2 hrun2 hji2,
            show i - j = i + 1 - (j + 1) by omega]

/-- Projecting the row-wise fill onto one column gives the column-wise
fill (untouched for columns outside the filled list). -/
theorem ffillRows_proj (cols : List DFCol) (limit : ℕ) (f : DFCol) :
    ∀ (l : List Row) (last : DFCol → Option ℚ) (cnt : DFCol → ℕ),
      (ffillRows cols limit last cnt l).map (fun r => r.vals f) =
        if f ∈ cols then
          ffillCol limit (last f) (cnt f) (l.map (fun r => r.vals f))
        else l.map (fun r => r.vals f) := by
  intro l
  induction l with
  | nil => intro last cnt; by_cases hf : f ∈ cols <;> simp [ffillRows, ffillCol, hf]
  | cons r rs ih =>
    intro last cnt
    by_cases hf : f ∈ cols
    · rw [if_pos hf]
      cases hv : r.vals f with
      | some v =>
        simp only [ffillRows, List.map_cons, ih, if_pos hf, hv, ffillCol]
      | none =>
        simp only [ffillRows, List.map_cons, ih, if_pos hf, hv, ffillCol]
    · rw [if_neg hf]
      simp only [ffillRows, List.map_cons, ih, if_neg hf]

/-- Claim C4: for every measurement column and every run of consecutive
missing cells following an observed value `v` at position `j`, the bounded
forward fill (with run limit `days_limit ×` the number of sampling hours
per day, `2 × 4 = 8` by default) fills position `i` with `v` exactly when
`i - j ≤ limit`, and leaves it missing beyond the limit. -/
theorem fill_missing_values_bound (t : Table) (dl : ℕ) (f : DFCol)
    (i j : ℕ) (v : ℚ) (hf : f ∈ t.cols)
    (hj : (t.rows.map (fun r => r.vals f))[j]? = some (some v))
    (hrun : ∀ l, j < l → l ≤ i →
      (t.rows.map (fun r => r.vals f))[l]? = some none)
    (hji : j < i) :
    ((fill_missing_values (some t) dl).rows.map (fun r => r.vals f))[i]? =
      some (if i - j ≤ hoursPerDay.length * dl then some v else none) := by
  have hne : t.rows.isEmpty = false := by
    cases hr : t.rows with
    | nil => rw [hr] at hj; simp at hj
    | cons a l => rfl
  rw [fill_missing_values, hne, if_neg (by simp)]
  rw [ffillRows_proj, if_pos hf]
  exact ffillCol_run _ _ _ _ _ _ _ hj hrun hji

def c4Row (t : ℕ) (x : Option ℚ) : Row :=
  ⟨"A", "2020/01/01", t, fun f => if f = DFCol.temp then x else some 1⟩

def c4Table : Table := ⟨numericCols, [c4Row 60 (some 5), c4Row 420 none, c4Row 780 none]⟩

/-- Witness for C4: in a three-row table whose `Temp` column is
`[5, NaN, NaN]`, the first missing slot (distance 1 ≤ 8 from the value) is
filled with `5`. -/
theorem fill_missing_values_bound_witness :
    ((fill_missing_values (some c4Table) 2).rows.map
        (fun r => r.vals DFCol.temp))[1]? =
      some (if 1 - 0 ≤ hoursPerDay.length * 2 then some 5 else none) :=
  fill_missing_values_bound c4Table 2 DFCol.temp 1 0 5 (by decide) (by decide)
    (by
      intro l h1 h2
      have h3 : l = 1 := by omega
      subst h3
      decide)
    (by decide)

/-- Claim C5: the column pass of corruption pruning keeps exactly the
columns whose missing percentage (measured on the table given to the
sub-step) does not strictly exceed the threshold and leaves the rows alone;
the following row pass keeps exactly the rows whose missing count over the
*remaining* columns does not strictly exceed the row threshold, and leaves
the columns alone. -/
theorem corruption_pruning (t : Table) (cth : ℚ) (rth : ℕ)
    (h : t.rows ≠ []) :
    (remove_corrupted_columns (some t) cth).cols =
      t.cols.filter (fun f => decide (missingPct t f ≤ cth)) ∧
    (remove_corrupted_columns (some t) cth).rows = t.rows ∧
    (remove_corrupt_rows (some (remove_corrupted_columns (some t) cth)) rth).rows =
      t.rows.filter (fun r =>
        decide (missCount (remove_corrupted_columns (some t) cth).cols r ≤ rth)) ∧
    (remove_corrupt_rows (some (remove_corrupted_columns (some t) cth)) rth).cols =
      (remove_corrupted_columns (some t) cth).cols := by
  have hne : t.rows.isEmpty = false := by
    cases hr : t.rows with
    | nil => exact absurd hr h
    | cons a l => rfl
  have hcols : (remove_corrupted_columns (some t) cth).cols =
      t.cols.filter (fun f => decide (missingPct t f ≤ cth)) := by
    rw [remove_corrupted_columns, hne, if_neg (by simp)]
    refine List.filter_congr ?_
    intro f _
    rw [← decide_not, decide_eq_decide]
    exact not_lt
  have hrows : (remove_corrupted_columns (some t) cth).rows = t.rows := by
    rw [remove_corrupted_columns, hne, if_neg (by simp)]
  refine ⟨hcols, hrows, ?_, ?_⟩
  · rw [remove_corrupt_rows, hrows, hne, if_neg (by simp)]
    dsimp only
    refine List.filter_congr ?_
    intro r _
    rw [decide_eq_decide]
    have hm : missCount (remove_corrupted_columns (some t) cth).cols r ≤
        (remove_corrupted_columns (some t) cth).cols.length :=
      List.countP_le_length _
    omega
  · rw [remove_corrupt_rows, hrows, hne, if_neg (by simp)]

def c5RowA : Row :=
  ⟨"A", "2020/01/01", 60, fun f => match f with
    | DFCol.rh => none | _ => some 1⟩

def c5RowB : Row :=
  ⟨"A", "2020/01/01", 60, fun f => match f with
    | DFCol.rh => none | DFCol.temp => none | _ => some 1⟩

def c5RowD : Row :=
  ⟨"A", "2020/01/01", 60, fun f => match f with
    | DFCol.rh => none | DFCol.temp => none | DFCol.pressure => none
    | DFCol.wd => none | DFCol.ws => none | _ => some 1⟩

def c5RowE : Row := ⟨"A", "2020/01/01", 60, fun _ => some 1⟩

/-- Five rows: `RH` is missing in 4 of 5 rows (80%), `Temp` in 3 of 5
(60%), and the fourth row misses four measurement cells besides `RH`. -/
def c5Table : Table := ⟨numericCols, [c5RowA, c5RowB, c5RowB, c5RowD, c5RowE]⟩

/-- Witness for C5 at thresholds `70` and `3`: the characterization holds,
and concretely the 80%-missing `RH` column is dropped while the
60%-missing `Temp` column is kept, after which the row missing four of the
remaining columns is dropped. -/
theorem corruption_pruning_witness :
    ((remove_corrupted_columns (some c5Table) 70).cols =
        c5Table.cols.filter (fun f => decide (missingPct c5Table f ≤ 70)) ∧
      (remove_corrupted_columns (some c5Table) 70).rows = c5Table.rows ∧
      (remove_corrupt_rows (some (remove_corrupted_columns (some c5Table) 70))
          3).rows =
        c5Table.rows.filter (fun r =>
          decide (missCount (remove_corrupted_columns (some c5Table) 70).cols r ≤
            3)) ∧
      (remove_corrupt_rows (some (remove_corrupted_columns (some c5Table) 70))
          3).cols =
        (remove_corrupted_columns (some c5Table) 70).cols) ∧
    (remove_corrupted_columns (some c5Table) 70).cols =
      [DFCol.pressure, DFCol.temp, DFCol.wd, DFCol.ws, DFCol.prec,
       DFCol.no, DFCol.no2, DFCol.nox, DFCol.o3, DFCol.pm10, DFCol.pm25] ∧
    (remove_corrupt_rows (some (remove_corrupted_columns (some c5Table) 70))
        3).rows = [c5RowA, c5RowB, c5RowB, c5RowE] := by
  refine ⟨corruption_pruning c5Table 70 3 (List.cons_ne_nil _ _), ?_, ?_⟩
  · norm_num [remove_corrupted_columns, missingPct, c5Table, c5RowA, c5RowB,
      c5RowD, c5RowE, numericCols, List.filter, List.countP, List.countP.go]
  · norm_num [remove_corrupt_rows, remove_corrupted_columns, missingPct,
      missCount, c5Table, c5RowA, c5RowB, c5RowD, c5RowE, numericCols,
      List.filter, List.countP, List.countP.go]

theorem rowExt {a b : Row} (hs : a.station = b.station)
    (hd : a.date = b.date) (ht : a.time = b.time)
    (hv : ∀ f, a.vals f = b.vals f) : a = b := by
  cases a with
  | mk s d t v =>
    cases b with
    | mk s2 d2 t2 v2 =>
      have hfun : v = v2 := funext hv
      simp only at hs hd ht
      rw [hs, hd, ht, hfun]

theorem tableExt {a b : Table} (hc : a.cols = b.cols)
    (hr : a.rows = b.rows) : a = b := by
  cases a; cases b
  simp only at hc hr
  rw [hc, hr]

theorem rowEqB_rowKey {cols : List DFCol} {a b : Row}
    (h : rowEqB cols a b = true) : rowKey a = rowKey b := by
  simp only [rowEqB, Bool.and_eq_true, decide_eq_true_eq] at h
  rcases h with ⟨⟨⟨hs, hd⟩, ht⟩, -⟩
  simp [rowKey, hs, hd, ht]

theorem length_dropDupKeepLast (cols : List DFCol) (l : List Row) :
    (dropDupKeepLast cols l).length ≤ l.length := by
  induction l with
  | nil => simp [dropDupKeepLast]
  | cons r rs ih =>
    by_cases hd : rs.any (rowEqB cols r)
    · rw [dropDupKeepLast, if_pos hd]
      exact Nat.le_succ_of_le ih
    · rw [dropDupKeepLast, if_neg hd]
      simpa using Nat.succ_le_succ ih

/-- On a list with pairwise distinct keys there are no duplicate rows to
drop. -/
theorem dropDupKeepLast_id {cols : List DFCol} {l : List Row}
    (h : (l.map rowKey).Pairwise (fun a b => a ≠ b)) :
    dropDupKeepLast cols l = l := by
  induction l with
  | nil => rfl
  | cons r rs ih =>
    rw [List.map_cons, List.pairwise_cons] at h
    have hany : rs.any (rowEqB cols r) = false := by
      refine List.any_eq_false.mpr ?_
      intro s hs heq
      exact h.1 (rowKey s) (List.mem_map_of_mem rowKey hs) (rowEqB_rowKey heq)
    rw [dropDupKeepLast, hany, if_neg (by simp), ih h.2]

/-- With pairwise distinct keys, the key class of a member row is just that
row. -/
theorem filter_key_singleton {l : List Row} {r : Row}
    (h : (l.map rowKey).Pairwise (fun a b => a ≠ b)) (hr : r ∈ l) :
    l.filter (fun s => decide (rowKey s = rowKey r)) = [r] := by
  induction l with
  | nil => exact absurd hr (List.not_mem_nil r)
  | cons x xs ih =>
    rw [List.map_cons, List.pairwise_cons] at h
    rcases List.mem_cons.mp hr with rfl | hr2
    · rw [List.filter_cons_of_pos (by simp)]
      have hnil : xs.filter (fun s => decide (rowKey s = rowKey r)) = [] := by
        refine List.filter_eq_nil_iff.mpr ?_
        intro s hs hdec
        exact h.1 (rowKey s) (List.mem_map_of_mem rowKey hs)
          (of_decide_eq_true hdec).symm
      rw [hnil]
    · rw [List.filter_cons_of_neg
        (by
          simp only [decide_eq_true_eq]
          exact fun he => h.1 (rowKey r) (List.mem_map_of_mem rowKey hr2) he),
        ih h.2 hr2]

theorem meanOpt_nil : meanOpt [] = none := rfl

theorem meanOpt_single (v : ℚ) : meanOpt [v] = some v := by
  simp [meanOpt]

/-- The consolidated row of a singleton group is the group's row. -/
theorem mkMeanRow_self {dd : List Row} {r : Row}
    (h : (dd.map rowKey).Pairwise (fun a b => a ≠ b)) (hr : r ∈ dd) :
    mkMeanRow dd (rowKey r) = r := by
  have hf := filter_key_singleton h hr
  refine rowExt rfl rfl rfl ?_
  intro f
  show meanOpt ((dd.filter (fun s => decide (rowKey s = rowKey r))).filterMap
    (fun s => s.vals f)) = r.vals f
  rw [hf]
  cases hv : r.vals f with
  | none => simp [List.filterMap, hv, meanOpt]
  | some v => simp [List.filterMap, hv, meanOpt_single]

theorem handle_duplicates_eq (t : Table) (h : t.rows ≠ []) :
    handle_duplicates (some t) =
      ⟨t.cols, (keyList (dropDupKeepLast t.cols t.rows)).map
        (mkMeanRow (dropDupKeepLast t.cols t.rows))⟩ := by
  have hne : t.rows.isEmpty = false := by
    cases hr : t.rows with
    | nil => exact absurd hr h
    | cons a l => rfl
  rw [handle_duplicates, hne, if_neg (by simp)]

theorem rowKey_mkMeanRow (dd : List Row) (k : String × String × ℕ) :
    rowKey (mkMeanRow dd k) = k := rfl

theorem map_rowKey_handle_duplicates (t : Table) (h : t.rows ≠ []) :
    (handle_duplicates (some t)).rows.map rowKey =
      keyList (dropDupKeepLast t.cols t.rows) := by
  rw [handle_duplicates_eq t h]
  dsimp only
  rw [List.map_map]
  have : rowKey ∘ mkMeanRow (dropDupKeepLast t.cols t.rows) = id := by
    funext k
    exact rowKey_mkMeanRow _ k
  rw [this, List.map_id]

theorem mem_of_mem_dropDupKeepLast {cols : List DFCol} {l : List Row}
    {s : Row} (h : s ∈ dropDupKeepLast cols l) : s ∈ l := by
  induction l with
  | nil => simp [dropDupKeepLast] at h
  | cons r rs ih =>
    by_cases hd : rs.any (rowEqB cols r)
    · rw [dropDupKeepLast, if_pos hd] at h
      exact List.mem_cons_of_mem r (ih h)
    · rw [dropDupKeepLast, if_neg hd] at h
      rcases List.mem_cons.mp h with rfl | h2
      · exact List.mem_cons_self s rs
      · exact List.mem_cons_of_mem r (ih h2)

/-- `drop_duplicates(keep='last')` removes only rows that recur later, so
exactly the `(station, date, time)` keys of the input survive it. -/
theorem exists_key_dropDupKeepLast {cols : List DFCol} {l : List Row}
    {k : String × String × ℕ} :
    (∃ s ∈ dropDupKeepLast cols l, rowKey s = k) ↔ ∃ s ∈ l, rowKey s = k := by
  constructor
  · rintro ⟨s, hs, rfl⟩
    exact ⟨s, mem_of_mem_dropDupKeepLast hs, rfl⟩
  · intro h
    induction l with
    | nil =>
      rcases h with ⟨s, hs, -⟩
      exact absurd hs (List.not_mem_nil s)
    | cons r rs ih =>
      rcases h with ⟨s, hs, hk⟩
      by_cases hd : rs.any (rowEqB cols r)
      · rw [dropDupKeepLast, if_pos hd]
        rcases List.mem_cons.mp hs with rfl | h2
        · rcases List.any_eq_true.mp hd with ⟨s2, hs2, he⟩
          exact ih ⟨s2, hs2, (rowEqB_rowKey he).symm.trans hk⟩
        · exact ih ⟨s, h2, hk⟩
      · rw [dropDupKeepLast, if_neg hd]
        rcases List.mem_cons.mp hs with rfl | h2
        · exact ⟨s, List.mem_cons_self s _, hk⟩
        · rcases ih ⟨s, h2, hk⟩ with ⟨s3, hs3, hk3⟩
          exact ⟨s3, List.mem_cons_of_mem r hs3, hk3⟩

/-- Claim C3: on a non-empty table the duplicate consolidator returns at
most as many rows as the input, its `(station, date, time)` keys are
pairwise distinct, every output measurement cell is the arithmetic mean
of the non-missing cells of its key's group in the exact-duplicate-free
row list (missing when the whole group is missing there), and a key has an
output row exactly when it has an input row — so each group collapses to
exactly one row. -/
theorem handle_duplicates_spec (t : Table) (h : t.rows ≠ []) :
    (handle_duplicates (some t)).rows.length ≤ t.rows.length ∧
    ((handle_duplicates (some t)).rows.map rowKey).Pairwise
      (fun a b => a ≠ b) ∧
    (∀ r ∈ (handle_duplicates (some t)).rows, ∀ f : DFCol,
      r.vals f =
        if (((dropDupKeepLast t.cols t.rows).filter
              (fun s => decide (rowKey s = rowKey r))).filterMap
            (fun s => s.vals f)).isEmpty then none
        else
          some ((((dropDupKeepLast t.cols t.rows).filter
                (fun s => decide (rowKey s = rowKey r))).filterMap
              (fun s => s.vals f)).sum /
            ((((dropDupKeepLast t.cols t.rows).filter
                (fun s => decide (rowKey s = rowKey r))).filterMap
              (fun s => s.vals f)).length : ℚ))) ∧
    ∀ k : String × String × ℕ,
      (∃ s ∈ t.rows, rowKey s = k) ↔
        ∃ r ∈ (handle_duplicates (some t)).rows, rowKey r = k := by
  refine ⟨?_, ?_, ?_, ?_⟩
  · rw [handle_duplicates_eq t h]
    dsimp only
    rw [List.length_map]
    calc (keyList (dropDupKeepLast t.cols t.rows)).length
        ≤ (dropDupKeepLast t.cols t.rows).length := length_keyList _
      _ ≤ t.rows.length := length_dropDupKeepLast _ _
  · rw [map_rowKey_handle_duplicates t h]
    exact (keysSorted_keyList _).imp keyLt_ne
  · intro r hr f
    rw [handle_duplicates_eq t h] at hr
    rcases List.mem_map.mp hr with ⟨k, hk, rfl⟩
    rw [rowKey_mkMeanRow]
    rfl
  · intro k
    have hiff : (∃ r ∈ (handle_duplicates (some t)).rows, rowKey r = k) ↔
        k ∈ keyList (dropDupKeepLast t.cols t.rows) := by
      rw [handle_duplicates_eq t h]
      dsimp only
      constructor
      · rintro ⟨r, hr, rfl⟩
        rcases List.mem_map.mp hr with ⟨k2, hk2, rfl⟩
        rw [rowKey_mkMeanRow]
        exact hk2
      · intro hk
        exact ⟨mkMeanRow _ k, List.mem_map_of_mem _ hk, rowKey_mkMeanRow _ k⟩
    rw [hiff, mem_keyList]
    exact exists_key_dropDupKeepLast.symm

def c3RowP (p : Option ℚ) : Row :=
  ⟨"StationA", "2020/01/01", 420, fun f => match f with
    | DFCol.pressure => p | _ => some 2⟩

/-- The example table of the claim: two rows with the same
`(StationA, 2020/01/01, 07:00)` key, pressure `1000` and `1010`, everything
else identical. -/
def c3Table : Table := ⟨numericCols, [c3RowP (some 1000), c3RowP (some 1010)]⟩

/-- Witness for C3: the characterization holds on the example table, and
evaluating it there consolidates the two rows into one with the mean
pressure `1005` (and the common value `2` elsewhere). -/
theorem handle_duplicates_spec_witness :
    ((handle_duplicates (some c3Table)).rows.length ≤ c3Table.rows.length ∧
      ((handle_duplicates (some c3Table)).rows.map rowKey).Pairwise
        (fun a b => a ≠ b) ∧
      (∀ r ∈ (handle_duplicates (some c3Table)).rows, ∀ f : DFCol,
        r.vals f =
          if (((dropDupKeepLast c3Table.cols c3Table.rows).filter
                (fun s => decide (rowKey s = rowKey r))).filterMap
              (fun s => s.vals f)).isEmpty then none
          else
            some ((((dropDupKeepLast c3Table.cols c3Table.rows).filter
                  (fun s => decide (rowKey s = rowKey r))).filterMap
                (fun s => s.vals f)).sum /
              ((((dropDupKeepLast c3Table.cols c3Table.rows).filter
                  (fun s => decide (rowKey s = rowKey r))).filterMap
                (fun s => s.vals f)).length : ℚ))) ∧
      ∀ k : String × String × ℕ,
        (∃ s ∈ c3Table.rows, rowKey s = k) ↔
          ∃ r ∈ (handle_duplicates (some c3Table)).rows, rowKey r = k) ∧
    (handle_duplicates (some c3Table)).rows.map
        (fun r => r.vals DFCol.pressure) = [some 1005] ∧
    (handle_duplicates (some c3Table)).rows.length = 1 := by
  refine ⟨handle_duplicates_spec c3Table (List.cons_ne_nil _ _), ?_, ?_⟩
  · norm_num [handle_duplicates, c3Table, c3RowP, dropDupKeepLast, rowEqB,
      numericCols, keyList, insertKey, mkMeanRow, meanOpt, rowKey, keyLt,
      List.filter, List.filterMap]
    exact fun h => absurd h (by simp)
  · norm_num [handle_duplicates, c3Table, c3RowP, dropDupKeepLast, rowEqB,
      numericCols, keyList, insertKey, rowKey, keyLt]

/-- Claim C6: the duplicate consolidator is idempotent — run on its own
non-empty output it returns that output unchanged: the output has pairwise
distinct keys, so no exact duplicate is dropped and every group is a
singleton whose skip-NA mean is itself. -/
theorem handle_duplicates_idem (t : Option Table)
    (h : (handle_duplicates t).rows ≠ []) :
    handle_duplicates (some (handle_duplicates t)) = handle_duplicates t := by
  cases t with
  | none => exact absurd rfl h
  | some t0 =>
    by_cases h0 : t0.rows = []
    · have hempty : (handle_duplicates (some t0)).rows = [] := by
        rw [handle_duplicates, h0]
        rfl
      exact absurd hempty h
    · have hkeys : (handle_duplicates (some t0)).rows.map rowKey =
          keyList (dropDupKeepLast t0.cols t0.rows) :=
        map_rowKey_handle_duplicates t0 h0
      have hsorted : ((handle_duplicates (some t0)).rows.map rowKey).Pairwise
          keyLt := by
        rw [hkeys]
        exact keysSorted_keyList _
      have hneq : ((handle_duplicates (some t0)).rows.map rowKey).Pairwise
          (fun a b => a ≠ b) := hsorted.imp keyLt_ne
      rw [handle_duplicates_eq (handle_duplicates (some t0)) h]
      refine tableExt rfl ?_
      dsimp only
      rw [dropDupKeepLast_id hneq, keyList_of_sorted hsorted, List.map_map]
      have hid : ∀ r ∈ (handle_duplicates (some t0)).rows,
          (mkMeanRow (handle_duplicates (some t0)).rows ∘ rowKey) r = r :=
        fun r hr => mkMeanRow_self hneq hr
      rw [List.map_congr_left hid, List.map_id']

/-- Witness for C6: idempotence applied at the claim's example table. -/
theorem handle_duplicates_idem_witness :
    handle_duplicates (some (handle_duplicates (some c3Table))) =
      handle_duplicates (some c3Table) :=
  handle_duplicates_idem (some c3Table)
    (by
      rw [handle_duplicates_eq c3Table (List.cons_ne_nil _ _)]
      norm_num [c3Table, c3RowP, dropDupKeepLast, rowEqB, numericCols,
        keyList, insertKey, rowKey, keyLt])

theorem convertRow_isSome {r : RawRow} (hd : (parseDate r.date).isSome)
    (ht : (parseTime r.time).isSome) : (convertRow r).isSome := by
  rcases Option.isSome_iff_exists.mp hd with ⟨⟨d, m, y⟩, hd2⟩
  rcases Option.isSome_iff_exists.mp ht with ⟨tm, ht2⟩
  rw [convertRow, hd2, ht2]
  rfl

/-- Claim C9: on well-formed input (every date parses as `DD/MM/YYYY`,
every time as `HH:MM`) the type-and-sort normalizer succeeds and returns
exactly the converted rows in non-decreasing `(station, date, time)` key
order, and stably so: within each key class the output preserves the input
order of the converted rows. -/
theorem convert_data_types_sorted_stable (rt : List RawRow)
    (h : ∀ r ∈ rt, (parseDate r.date).isSome ∧ (parseTime r.time).isSome) :
    ∃ tb : Table, convert_data_types (some rt) = some tb ∧
      RowsSorted tb.rows ∧
      ∀ k : String × String × ℕ,
        tb.rows.filter (fun s => decide (rowKey s = k)) =
          (rt.filterMap convertRow).filter (fun s => decide (rowKey s = k)) := by
  cases rt with
  | nil =>
    refine ⟨Table.empty, rfl, ?_, ?_⟩
    · simp [Table.empty, RowsSorted]
    · intro k
      simp [Table.empty]
  | cons r0 rs =>
    have hall : ∀ r ∈ r0 :: rs, (convertRow r).isSome := fun r hr =>
      convertRow_isSome (h r hr).1 (h r hr).2
    refine ⟨⟨numericCols, sortRows ((r0 :: rs).filterMap convertRow)⟩, ?_, ?_, ?_⟩
    · rw [convert_data_types, if_neg (by simp), convertRows_eq_filterMap hall]
    · exact sortRows_sorted _
    · intro k
      exact sortRows_stable _ k

def c9Raw (st dt tm : String) (p : ℚ) : RawRow :=
  ⟨st, dt, tm, fun _ => some p⟩

/-- Four raw rows, deliberately out of order, with two rows sharing the
key `("A", 02/01/2020, 07:00)` (pressure `1` before pressure `2` in input
order). -/
def c9Input : List RawRow :=
  [c9Raw "B" "01/01/2020" "01:00" 9, c9Raw "A" "02/01/2020" "07:00" 1,
   c9Raw "A" "01/01/2020" "13:00" 5, c9Raw "A" "02/01/2020" "07:00" 2]

/-- Witness for C9 at the concrete input. -/
theorem convert_data_types_sorted_stable_witness :
    ∃ tb : Table, convert_data_types (some c9Input) = some tb ∧
      RowsSorted tb.rows ∧
      ∀ k : String × String × ℕ,
        tb.rows.filter (fun s => decide (rowKey s = k)) =
          (c9Input.filterMap convertRow).filter
            (fun s => decide (rowKey s = k)) :=
  convert_data_types_sorted_stable c9Input (by decide)

def c10RowA : Row :=
  ⟨"A", "2020/01/01", 60, fun f => match f with
    | DFCol.temp => some 5 | _ => some 1⟩

def c10RowB : Row :=
  ⟨"B", "2020/01/01", 60, fun f => match f with
    | DFCol.temp => none | _ => some 1⟩

/-- A sorted two-station table: station `A`'s (only and last) row holds
temperature `5`, station `B`'s first row is missing temperature. -/
def c10Table : Table := ⟨numericCols, [c10RowA, c10RowB]⟩

/-- Claim C10: the forward fill runs over the whole sorted table without
grouping by station, so station `A`'s last temperature is imputed into
station `B`'s first row: the keys are adjacent in sort order, the input
temperature column is `[5, NaN]`, and the filled column is `[5, 5]` with
the `5` of station `A` now attached to station `B`. -/
theorem fill_crosses_station_boundary :
    keyLt (rowKey c10RowA) (rowKey c10RowB) ∧
    c10Table.rows.map (fun r => (r.station, r.vals DFCol.temp)) =
      [("A", some 5), ("B", none)] ∧
    (fill_missing_values (some c10Table) 2).rows.map
        (fun r => (r.station, r.vals DFCol.temp)) =
      [("A", some 5), ("B", some 5)] := by
  refine ⟨Or.inl (String.lt_iff_toList_lt.mpr (by decide)), by decide, by decide⟩

/-- The schema-conforming counterexample input for claim C2: one row, all
fifteen columns present, key fields well-formed and non-missing — only its
`RH` cell is missing. -/
def c2BadRaw : RawRow :=
  ⟨"A", "01/01/2020", "01:00", fun f => match f with
    | DFCol.rh => none | _ => some 1⟩

def c2ConvRow : Row := ⟨"A", "2020/01/01", 60, c2BadRaw.vals⟩

def c2T1 : Table := ⟨numericCols, [c2ConvRow]⟩

def c2Cols : List DFCol :=
  [DFCol.pressure, DFCol.temp, DFCol.wd, DFCol.ws, DFCol.prec,
   DFCol.no, DFCol.no2, DFCol.nox, DFCol.o3, DFCol.pm10, DFCol.pm25]

def c2T3 : Table := ⟨c2Cols, [c2ConvRow]⟩

theorem c2_dup : handle_duplicates (some c2T1) = c2T1 := by
  rw [handle_duplicates_eq c2T1 (List.cons_ne_nil _ _)]
  refine tableExt rfl ?_
  dsimp only [c2T1]
  have hdd : dropDupKeepLast numericCols [c2ConvRow] = [c2ConvRow] := by
    norm_num [dropDupKeepLast]
  have hkl : keyList [c2ConvRow] = [rowKey c2ConvRow] := by
    norm_num [keyList, insertKey]
  rw [hdd, hkl, List.map_singleton,
    mkMeanRow_self (by simp) (List.mem_singleton_self c2ConvRow)]

theorem c2_fill : fill_missing_values (some c2T1) 2 = c2T1 := by
  rw [fill_missing_values, if_neg (by simp [c2T1])]
  refine tableExt rfl ?_
  dsimp only [c2T1]
  simp only [ffillRows]
  congr 1
  refine rowExt rfl rfl rfl ?_
  intro f
  cases f <;> norm_num [c2ConvRow, c2BadRaw, numericCols, hoursPerDay]

theorem c2_missing : handle_missing_values (some c2T1) 70 3 = c2T3 := by
  rw [handle_missing_values, if_neg (by simp [c2T1])]
  dsimp only
  rw [c2_fill]
  have hallm : c2T1.rows.filter (fun r => !(allMissing c2T1.cols r)) =
      [c2ConvRow] := by
    norm_num [allMissing, c2T1, c2ConvRow, c2BadRaw, numericCols]
  rw [hallm]
  have hmk : (⟨c2T1.cols, [c2ConvRow]⟩ : Table) = c2T1 := rfl
  rw [hmk]
  have hcol : remove_corrupted_columns (some c2T1) 70 = c2T3 := by
    refine tableExt ?_ ?_ <;>
      norm_num [remove_corrupted_columns, missingPct, c2T1, c2T3, c2Cols,
        c2ConvRow, c2BadRaw, numericCols, List.filter, List.countP,
        List.countP.go]
  rw [hcol]
  refine tableExt ?_ ?_ <;>
    norm_num [remove_corrupt_rows, missCount, c2T3, c2Cols, c2ConvRow,
      c2BadRaw, List.filter, List.countP, List.countP.go]

theorem c2_outliers : detect_and_handle_outliers (some c2T3) = none := by
  rw [detect_and_handle_outliers, if_neg (by simp [c2T3]), if_neg (by decide)]

/-- Counterexample to claim C2 as stated: on a schema-conforming one-row
input whose `RH` column is entirely missing, corruption pruning (default
thresholds) drops the `RH` column, and the outlier clamper then raises
`KeyError` on the missing `RH` column — the pipeline terminates on bad
data instead of degrading it. -/
theorem pipeline_counterexample :
    run_pipeline (some [c2BadRaw]) 70 3 = none := by
  have h1 : convert_data_types (some [c2BadRaw]) = some c2T1 := rfl
  unfold run_pipeline
  rw [h1]
  dsimp only
  rw [c2_dup, c2_missing, c2_outliers]

/-- Claim C2 as amended: for every raw input whose dates and times parse
(so the type normalizer succeeds) and on which corruption pruning retains
every measurement column that has a configured acceptable range, the
pipeline — convert, consolidate duplicates, handle missing values, clamp
outliers, in that order — completes and returns a table. -/
theorem run_pipeline_ok (rt : List RawRow) (cth : ℚ) (rth : ℕ) (t1 : Table)
    (h1 : convert_data_types (some rt) = some t1)
    (h2 : ∀ p ∈ acceptable_ranges,
      p.1 ∈ (handle_missing_values (some (handle_duplicates (some t1)))
        cth rth).cols) :
    (run_pipeline (some rt) cth rth).isSome = true := by
  unfold run_pipeline
  rw [h1]
  dsimp only
  rw [detect_and_handle_outliers]
  by_cases h3 : (handle_missing_values (some (handle_duplicates (some t1)))
      cth rth).rows.isEmpty
  · rw [if_pos h3]
    rfl
  · rw [if_neg h3,
      if_pos (List.all_eq_true.mpr (fun p hp => decide_eq_true (h2 p hp)))]
    rfl

/-- A fully present one-row raw input on which the amended C2 applies. -/
def c2GoodRaw : RawRow := ⟨"A", "01/01/2020", "01:00", fun _ => some 1⟩

def c2GoodRow : Row := ⟨"A", "2020/01/01", 60, c2GoodRaw.vals⟩

def c2GoodT1 : Table := ⟨numericCols, [c2GoodRow]⟩

theorem c2good_dup : handle_duplicates (some c2GoodT1) = c2GoodT1 := by
  rw [handle_duplicates_eq c2GoodT1 (List.cons_ne_nil _ _)]
  refine tableExt rfl ?_
  dsimp only [c2GoodT1]
  have hdd : dropDupKeepLast numericCols [c2GoodRow] = [c2GoodRow] := by
    norm_num [dropDupKeepLast]
  have hkl : keyList [c2GoodRow] = [rowKey c2GoodRow] := by
    norm_num [keyList, insertKey]
  rw [hdd, hkl, List.map_singleton,
    mkMeanRow_self (by simp) (List.mem_singleton_self c2GoodRow)]

theorem c2good_fill : fill_missing_values (some c2GoodT1) 2 = c2GoodT1 := by
  rw [fill_missing_values, if_neg (by simp [c2GoodT1])]
  refine tableExt rfl ?_
  dsimp only [c2GoodT1]
  simp only [ffillRows]
  congr 1
  refine rowExt rfl rfl rfl ?_
  intro f
  cases f <;> norm_num [c2GoodRow, c2GoodRaw, numericCols, hoursPerDay]

theorem c2good_missing :
    handle_missing_values (some c2GoodT1) 70 3 = c2GoodT1 := by
  rw [handle_missing_values, if_neg (by simp [c2GoodT1])]
  dsimp only
  rw [c2good_fill]
  have hallm : c2GoodT1.rows.filter (fun r => !(allMissing c2GoodT1.cols r)) =
      [c2GoodRow] := by
    norm_num [allMissing, c2GoodT1, c2GoodRow, c2GoodRaw, numericCols]
  rw [hallm]
  have hmk : (⟨c2GoodT1.cols, [c2GoodRow]⟩ : Table) = c2GoodT1 := rfl
  rw [hmk]
  have hcol : remove_corrupted_columns (some c2GoodT1) 70 = c2GoodT1 := by
    refine tableExt ?_ ?_ <;>
      norm_num [remove_corrupted_columns, missingPct, c2GoodT1, c2GoodRow,
        c2GoodRaw, numericCols, List.filter, List.countP, List.countP.go]
  rw [hcol]
  refine tableExt ?_ ?_ <;>
    norm_num [remove_corrupt_rows, missCount, c2GoodT1, c2GoodRow, c2GoodRaw,
      numericCols, List.filter, List.countP, List.countP.go]

/-- Witness for the amended C2: the pipeline completes on a fully present
one-row input (no column is pruned). -/
theorem run_pipeline_ok_witness :
    (run_pipeline (some [c2GoodRaw]) 70 3).isSome = true :=
  run_pipeline_ok [c2GoodRaw] 70 3 c2GoodT1 rfl
    (by rw [c2good_dup, c2good_missing]; decide)
